import Mathlib

/-!
Verification development for the gemini-live-translator repository.

Shallow embedding of the core pipeline:
* `src/utils.ts` : base64 codec wrappers, PCM float/int16 codec, linear
  downsampler (numbers are modelled as exact rationals `ℚ`; the JavaScript
  `||` fallback operator and the `Int16Array` truncating conversion are
  modelled explicitly).
* `src/services/liveClient.ts` : `handleOnMessage`, as a step function on an
  explicit client state emitting a list of observable effects.
* The `handleTranscriptUpdate` reconciler of the application shell, as a pure
  function on the transcript sequence.
-/

namespace GLT

/-! ## Base64 (model of the browser builtins `btoa` / `atob`)

`src/utils.ts` `encodeBase64` builds a binary string with
`String.fromCharCode` over the bytes and calls `btoa`; `decodeBase64` calls
`atob` and reads the code points back with `charCodeAt`.  For byte values
below 256 the binary-string step is the identity on code points, so the two
functions are modelled directly as a base64 encoder/decoder on byte lists.
`btoa`/`atob` are platform builtins (RFC 4648 base64 with `=` padding);
`atob` throws on malformed input, modelled by `Option`. -/

def base64Alphabet : List Char :=
  ['A', 'B', 'C', 'D', 'E', 'F', 'G', 'H', 'I', 'J', 'K', 'L', 'M',
   'N', 'O', 'P', 'Q', 'R', 'S', 'T', 'U', 'V', 'W', 'X', 'Y', 'Z',
   'a', 'b', 'c', 'd', 'e', 'f', 'g', 'h', 'i', 'j', 'k', 'l', 'm',
   'n', 'o', 'p', 'q', 'r', 's', 't', 'u', 'v', 'w', 'x', 'y', 'z',
   '0', '1', '2', '3', '4', '5', '6', '7', '8', '9', '+', '/']

def b64c (n : ℕ) : Char := base64Alphabet.getD n '?'

def b64v (c : Char) : Option ℕ := base64Alphabet.findIdx? (fun x => x = c)

/-- Modelled from the spec of the platform builtin `btoa` (RFC 4648 base64
with padding), applied to a list of byte code points. -/
def btoa : List ℕ → List Char
  | [] => []
  | [b1] => [b64c (b1 / 4), b64c (b1 % 4 * 16), '=', '=']
  | [b1, b2] => [b64c (b1 / 4), b64c (b1 % 4 * 16 + b2 / 16), b64c (b2 % 16 * 4), '=']
  | b1 :: b2 :: b3 :: rest =>
      b64c (b1 / 4) :: b64c (b1 % 4 * 16 + b2 / 16) ::
      b64c (b2 % 16 * 4 + b3 / 64) :: b64c (b3 % 64) :: btoa rest

/-- Modelled from the spec of the platform builtin `atob`: inverse of `btoa`,
`none` on malformed input (where `atob` throws). -/
def atob : List Char → Option (List ℕ)
  | [] => some []
  | c1 :: c2 :: c3 :: c4 :: rest =>
      match b64v c1, b64v c2 with
      | some v1, some v2 =>
          if c3 = '=' then
            if c4 = '=' ∧ rest = [] then some [v1 * 4 + v2 / 16] else none
          else
            match b64v c3 with
            | some v3 =>
                if c4 = '=' then
                  if rest = [] then some [v1 * 4 + v2 / 16, v2 % 16 * 16 + v3 / 4]
                  else none
                else
                  match b64v c4 with
                  | some v4 =>
                      match atob rest with
                      | some tail =>
                          some ((v1 * 4 + v2 / 16) :: (v2 % 16 * 16 + v3 / 4) ::
                                (v3 % 4 * 64 + v4) :: tail)
                      | none => none
                  | none => none
            | none => none
      | _, _ => none
  | _ => none

/-- Embeds `decodeBase64` from `src/utils.ts` (base64 string to bytes via
`atob` plus `charCodeAt`). -/
def decodeBase64 (base64 : List Char) : Option (List ℕ) := atob base64

/-- Embeds `encodeBase64` from `src/utils.ts` (bytes to base64 string via
`String.fromCharCode` plus `btoa`). -/
def encodeBase64 (bytes : List ℕ) : List Char := btoa bytes

/-! ## Resampler (`downsampleTo16k` in `src/utils.ts`)

Samples are exact rationals.  The JavaScript expression `input[i] || d`
yields `d` both when the index is out of range (`undefined` is falsy) and
when the stored sample is exactly `0` (zero is falsy); `jsOr` models this. -/

def jsOr (x : Option ℚ) (d : ℚ) : ℚ :=
  match x with
  | some v => if v = 0 then d else v
  | none => d

/-- Embeds `downsampleTo16k` from `src/utils.ts`. -/
def downsampleTo16k (input : List ℚ) (inputRate : ℕ) : List ℚ :=
  if inputRate = 16000 then input
  else
    let ratio : ℚ := (inputRate : ℚ) / 16000
    let newLength : ℕ := (⌈(input.length : ℚ) / ratio⌉).toNat
    (List.range newLength).map (fun i : ℕ =>
      let idx : ℚ := (i : ℚ) * ratio
      let intIdx : ℕ := (⌊idx⌋).toNat
      let frac : ℚ := idx - (intIdx : ℚ)
      let val1 : ℚ := jsOr (input.get? intIdx) 0
      let val2 : ℚ := jsOr (input.get? (intIdx + 1)) val1
      val1 * (1 - frac) + val2 * frac)

/-- Modelled from the spec: the interpolation formula of §4.1 / §8, stated in
the words of the spec ("output[i] = input[k]·(1−f) + input[k+1]·f; treat
out-of-range index as the last valid sample").  Used only to compare the
source function against the formula claimed for it. -/
def specSampleAt (input : List ℚ) (j : ℕ) : ℚ :=
  if j < input.length then input.getD j 0 else input.getD (input.length - 1) 0

/-- Modelled from the spec: the full downsampler that §4.1 describes. -/
def downsampleSpecFormula (input : List ℚ) (inputRate : ℕ) : List ℚ :=
  if inputRate = 16000 then input
  else
    let ratio : ℚ := (inputRate : ℚ) / 16000
    let newLength : ℕ := (⌈(input.length : ℚ) / ratio⌉).toNat
    (List.range newLength).map (fun i : ℕ =>
      let p : ℚ := (i : ℚ) * ratio
      let k : ℕ := (⌊p⌋).toNat
      let f : ℚ := p - (k : ℚ)
      specSampleAt input k * (1 - f) + specSampleAt input (k + 1) * f)

/-! ## PCM encoder/decoder (`createPcmBlob` / `decodeAudioData`)

`createPcmBlob` clamps every sample, multiplies by `0x8000` (negative) or
`0x7FFF` (otherwise) and assigns into an `Int16Array`.  The ECMAScript
assignment conversion (`ToInt16`) truncates towards zero and wraps modulo
2^16; both steps are modelled explicitly.  The bytes of the `Int16Array`
buffer are its values packed little-endian. -/

def ratTrunc (q : ℚ) : ℤ := if 0 ≤ q then ⌊q⌋ else ⌈q⌉

def toInt16 (n : ℤ) : ℤ :=
  let m := n % 65536
  if 32768 ≤ m then m - 65536 else m

/-- Embeds the per-sample conversion of `createPcmBlob` in `src/utils.ts`:
clamp to [−1,1], scale, `Int16Array` assignment. -/
def floatToInt16 (x : ℚ) : ℤ :=
  let s := max (-1) (min 1 x)
  if s < 0 then toInt16 (ratTrunc (s * 32768)) else toInt16 (ratTrunc (s * 32767))

/-- Little-endian bytes of one stored int16 value. -/
def int16LEBytes (v : ℤ) : List ℕ :=
  let u := (v % 65536).toNat
  [u % 256, u / 256]

/-- Embeds the PCM byte payload built by `createPcmBlob` (the bytes of
`int16.buffer`). -/
def pcmData (data : List ℚ) : List ℕ :=
  (data.map (fun s => int16LEBytes (floatToInt16 s))).flatten

/-- Embeds `createPcmBlob` from `src/utils.ts`: base64 of the PCM bytes plus
the mime tag. -/
def createPcmBlob (data : List ℚ) : List Char × List Char :=
  (encodeBase64 (pcmData data), ['a', 'u', 'd', 'i', 'o', '/', 'p', 'c', 'm', ';',
    'r', 'a', 't', 'e', '=', '1', '6', '0', '0', '0'])

/-- Reads one little-endian int16 from two bytes, as `Int16Array` does. -/
def decodeInt16LE (lo hi : ℕ) : ℤ :=
  let u := lo + 256 * hi
  if 32768 ≤ u then (u : ℤ) - 65536 else (u : ℤ)

/-- Embeds the mono case of `decodeAudioData` from `src/utils.ts`: view the
bytes as little-endian int16 values and divide by 32768 (`none` when the byte
length is odd, where the `Int16Array` constructor throws). -/
def decodePcmSamples : List ℕ → Option (List ℚ)
  | [] => some []
  | lo :: hi :: rest =>
      match decodePcmSamples rest with
      | some t => some (((decodeInt16LE lo hi : ℚ) / 32768) :: t)
      | none => none
  | _ => none

/-! ## Live client (`handleOnMessage` in `src/services/liveClient.ts`)

The method is modelled as a pure step function on an explicit state,
returning the next state together with the list of observable effects in the
order the code produces them.  Outward effects relevant to the claims are
transcript-update callbacks, the scheduling of one decoded audio chunk, and
stopping one tracked source (the visualizer level callback is orthogonal to
every claim and not tracked).  Scheduled `AudioBufferSourceNode` objects are
represented by ids drawn from a counter; `audioContext.currentTime` at the
moment the message is processed is the extra parameter `now`. -/

/-- JavaScript `!text.trim()`: true iff every character is trim-whitespace
(in particular for the empty string). -/
def jsTrimmedEmpty (t : List Char) : Bool :=
  t.all (fun c => c = ' ' ∨ c = '\t' ∨ c = '\n' ∨ c = '\r' ∨ c = '\x0b' ∨ c = '\x0c')

inductive Effect where
  | transcriptUpdate (text : List Char) (isUser : Bool) (isComplete : Bool)
  | audioScheduled (start duration : ℚ)
  | sourceStopped (id : ℕ)
deriving DecidableEq

/-- The fields of `GeminiLiveClient` that `handleOnMessage` reads or writes. -/
structure ClientState where
  currentInputTranscription : List Char
  currentOutputTranscription : List Char
  nextStartTime : ℚ
  scheduledSources : List ℕ
  nextSourceId : ℕ
deriving DecidableEq

def initialClientState : ClientState := ⟨[], [], 0, [], 0⟩

/-- The parts of a `LiveServerMessage.serverContent` that `handleOnMessage`
inspects: `interrupted`, `inputTranscription.text`, `outputTranscription.text`,
`turnComplete`, and `modelTurn.parts[0].inlineData.data` (a base64 string). -/
structure ServerContent where
  interrupted : Bool
  inputTranscription : Option (List Char)
  outputTranscription : Option (List Char)
  turnComplete : Bool
  audioData : Option (List Char)
deriving DecidableEq

/-- Section 2a of `handleOnMessage`: user input transcription delta. -/
def stepInput (s : ClientState) (msg : ServerContent) : ClientState × List Effect :=
  match msg.inputTranscription with
  | some t =>
      let acc := s.currentInputTranscription ++ t
      ({ s with currentInputTranscription := acc },
       [Effect.transcriptUpdate acc true false])
  | none => (s, [])

/-- Section 2b of `handleOnMessage`: model output transcription delta. -/
def stepOutput (s : ClientState) (msg : ServerContent) : ClientState × List Effect :=
  match msg.outputTranscription with
  | some t =>
      let acc := s.currentOutputTranscription ++ t
      ({ s with currentOutputTranscription := acc },
       [Effect.transcriptUpdate acc false false])
  | none => (s, [])

/-- Section 3 of `handleOnMessage`: turn completion finalizes both
accumulators that are non-blank. -/
def stepTurnComplete (s : ClientState) (msg : ServerContent) : ClientState × List Effect :=
  if msg.turnComplete then
    let rA : ClientState × List Effect :=
      if jsTrimmedEmpty s.currentInputTranscription then (s, [])
      else ({ s with currentInputTranscription := [] },
            [Effect.transcriptUpdate s.currentInputTranscription true true])
    let sA := rA.1
    let rB : ClientState × List Effect :=
      if jsTrimmedEmpty sA.currentOutputTranscription then (sA, [])
      else ({ sA with currentOutputTranscription := [] },
            [Effect.transcriptUpdate sA.currentOutputTranscription false true])
    (rB.1, rA.2 ++ rB.2)
  else (s, [])

/-- Section 4 of `handleOnMessage`: decode and schedule one audio chunk.
Models the try/catch around decoding: a base64 failure or an odd byte length
(where the `Int16Array` constructor throws) is caught and skipped.  The
decoded buffer at 24000 Hz has duration `frameCount / 24000`, and the empty
`audioData` string is falsy in the `audioData && this.audioContext` guard. -/
def stepAudio (s : ClientState) (msg : ServerContent) (now : ℚ) :
    ClientState × List Effect :=
  match msg.audioData with
  | some b64 =>
      if b64 = [] then (s, [])
      else
        match decodeBase64 b64 with
        | some bytes =>
            if bytes.length % 2 = 0 then
              let frameCount := bytes.length / 2
              let dur : ℚ := (frameCount : ℚ) / 24000
              let start := max now s.nextStartTime
              ({ s with nextStartTime := start + dur,
                        scheduledSources := s.scheduledSources ++ [s.nextSourceId],
                        nextSourceId := s.nextSourceId + 1 },
               [Effect.audioScheduled start dur])
            else (s, [])
        | none => (s, [])
  | none => (s, [])

/-- Embeds `handleOnMessage` from `src/services/liveClient.ts`: interruption
is checked first and returns immediately; otherwise the numbered sections of
the method run in order on the shared state. -/
def handleOnMessage (s : ClientState) (msg : ServerContent) (now : ℚ) :
    ClientState × List Effect :=
  if msg.interrupted then
    ({ s with currentInputTranscription := [], currentOutputTranscription := [],
              scheduledSources := [], nextStartTime := 0 },
     s.scheduledSources.map Effect.sourceStopped)
  else
    let r1 := stepInput s msg
    let r2 := stepOutput r1.1 msg
    let r3 := stepTurnComplete r2.1 msg
    let r4 := stepAudio r3.1 msg now
    (r4.1, r1.2 ++ r2.2 ++ r3.2 ++ r4.2)

/-- Processes a list of messages in arrival order, each with the audio-clock
reading at its processing time, concatenating the emitted effects. -/
def processTrace (s : ClientState) : List (ServerContent × ℚ) → ClientState × List Effect
  | [] => (s, [])
  | (m, t) :: rest =>
      let r1 := handleOnMessage s m t
      let r2 := processTrace r1.1 rest
      (r2.1, r1.2 ++ r2.2)

/-- The (start, duration) pairs of the scheduled chunks among some effects. -/
def scheds (es : List Effect) : List (ℚ × ℚ) :=
  es.filterMap (fun e =>
    match e with
    | Effect.audioScheduled st d => some (st, d)
    | _ => none)

/-! ## Transcript reconciler (`handleTranscriptUpdate` in the app shell)

The React state updater is a pure function from the previous transcript list
to the next one; `Date.now()` at the time of the update is the parameter
`now`.  The code stores `Date.now().toString()` as the id of an appended
item; decimal rendering of naturals is injective, so ids are modelled as the
underlying numbers. -/

inductive Speaker where
  | user
  | model
deriving DecidableEq

structure TranscriptItem where
  id : ℕ
  source : Speaker
  text : List Char
  timestamp : ℕ
  isComplete : Bool
deriving DecidableEq

/-- Embeds the `handleTranscriptUpdate` state updater of the app shell
(`src/unnamed/part_000`). -/
def handleTranscriptUpdate (prev : List TranscriptItem) (text : List Char)
    (isUser : Bool) (isComplete : Bool) (now : ℕ) : List TranscriptItem :=
  let lastItem? := prev.getLast?
  let currentSource := if isUser then Speaker.user else Speaker.model
  if jsTrimmedEmpty text then prev
  else
    match lastItem? with
    | some lastItem =>
        if lastItem.source = currentSource ∧ lastItem.isComplete = false then
          prev.dropLast ++
            [{ lastItem with text := text, isComplete := isComplete, timestamp := now }]
        else if lastItem.source = currentSource ∧ lastItem.isComplete = true then
          if lastItem.text = text then prev
          else if text.isPrefixOf lastItem.text then prev
          else if lastItem.text.isPrefixOf text then
            prev.dropLast ++
              [{ lastItem with text := text, isComplete := isComplete, timestamp := now }]
          else prev ++ [⟨now, currentSource, text, now, isComplete⟩]
        else prev ++ [⟨now, currentSource, text, now, isComplete⟩]
    | none => prev ++ [⟨now, currentSource, text, now, isComplete⟩]

/-- Modelled from the spec: the upsert rule of §4.4 exactly as the claim
words it, used only to compare the source function against it.  Rule 1:
blank text is a no-op.  Rule 2: a last item of the same speaker that is
incomplete is replaced in place.  Rule 3: against a completed last item of
the same speaker, a text that equals it or is a prefix of it is dropped, a
strict extension reopens the item, anything else appends.  Rule 4: append. -/
def upsertRuleSpec (prev : List TranscriptItem) (text : List Char)
    (isUser : Bool) (isComplete : Bool) (now : ℕ) : List TranscriptItem :=
  let currentSource := if isUser then Speaker.user else Speaker.model
  let appended := prev ++ [⟨now, currentSource, text, now, isComplete⟩]
  if jsTrimmedEmpty text then prev
  else
    match prev.getLast? with
    | some lastItem =>
        if lastItem.source = currentSource ∧ lastItem.isComplete = false then
          prev.dropLast ++
            [{ lastItem with text := text, isComplete := isComplete, timestamp := now }]
        else if lastItem.source = currentSource ∧ lastItem.isComplete = true then
          if text = lastItem.text ∨ text <+: lastItem.text then prev
          else if lastItem.text <+: text ∧ text ≠ lastItem.text then
            prev.dropLast ++
              [{ lastItem with text := text, isComplete := isComplete, timestamp := now }]
          else appended
        else appended
    | none => appended

/-- One transcript-update event: the callback arguments together with the
`Date.now()` reading at that update. -/
structure UpdateEvent where
  text : List Char
  isUser : Bool
  isComplete : Bool
  now : ℕ
deriving DecidableEq

/-- Runs a series of transcript updates from an initial sequence. -/
def runUpdates (init : List TranscriptItem) (us : List UpdateEvent) : List TranscriptItem :=
  us.foldl (fun acc u => handleTranscriptUpdate acc u.text u.isUser u.isComplete u.now) init

/-- Modelled from the spec: the invariant of §3 on the transcript sequence —
for a given speaker, only the final item of that speaker may be incomplete, so any
item that precedes a later item of the same speaker is complete. -/
def perSpeakerIncompleteInvariant (items : List TranscriptItem) : Prop :=
  ∀ (i j : ℕ) (hi : i < items.length) (hj : j < items.length), i < j →
    (items.get ⟨i, hi⟩).source = (items.get ⟨j, hj⟩).source →
    (items.get ⟨i, hi⟩).isComplete = true

/-! ## Helper lemmas -/

theorem b64v_b64c_fin : ∀ n : Fin 64, b64v (b64c n.1) = some n.1 := by decide

theorem b64c_ne_pad_fin : ∀ n : Fin 64, b64c n.1 ≠ '=' := by decide

theorem b64v_b64c (n : ℕ) (h : n < 64) : b64v (b64c n) = some n :=
  b64v_b64c_fin ⟨n, h⟩

theorem b64c_ne_pad (n : ℕ) (h : n < 64) : b64c n ≠ '=' :=
  b64c_ne_pad_fin ⟨n, h⟩

theorem atob_btoa (bytes : List ℕ) :
    (∀ b ∈ bytes, b < 256) → atob (btoa bytes) = some bytes := by
  induction bytes using btoa.induct with
  | case1 => intro _; rfl
  | case2 b1 =>
      intro h
      have hb1 : b1 < 256 := h b1 (by simp)
      simp only [btoa, atob, b64v_b64c (b1 / 4) (by omega),
        b64v_b64c (b1 % 4 * 16) (by omega)]
      simp only [if_pos rfl, and_self, reduceIte]
      have h1 : b1 / 4 * 4 + b1 % 4 * 16 / 16 = b1 := by omega
      rw [h1]
  | case3 b1 b2 =>
      intro h
      have hb1 : b1 < 256 := h b1 (by simp)
      have hb2 : b2 < 256 := h b2 (by simp)
      simp only [btoa, atob, b64v_b64c (b1 / 4) (by omega),
        b64v_b64c (b1 % 4 * 16 + b2 / 16) (by omega),
        b64v_b64c (b2 % 16 * 4) (by omega)]
      rw [if_neg (b64c_ne_pad (b2 % 16 * 4) (by omega))]
      simp only [if_pos rfl, reduceIte]
      have h1 : b1 / 4 * 4 + (b1 % 4 * 16 + b2 / 16) / 16 = b1 := by omega
      have h2 : (b1 % 4 * 16 + b2 / 16) % 16 * 16 + b2 % 16 * 4 / 4 = b2 := by omega
      rw [h1, h2]
  | case4 b1 b2 b3 rest ih =>
      intro h
      have hb1 : b1 < 256 := h b1 (by simp)
      have hb2 : b2 < 256 := h b2 (by simp)
      have hb3 : b3 < 256 := h b3 (by simp)
      have hrest : ∀ b ∈ rest, b < 256 := fun b hb => h b (by simp [hb])
      simp only [btoa, atob, b64v_b64c (b1 / 4) (by omega),
        b64v_b64c (b1 % 4 * 16 + b2 / 16) (by omega),
        b64v_b64c (b2 % 16 * 4 + b3 / 64) (by omega),
        b64v_b64c (b3 % 64) (by omega)]
      rw [if_neg (b64c_ne_pad (b2 % 16 * 4 + b3 / 64) (by omega))]
      rw [if_neg (b64c_ne_pad (b3 % 64) (by omega))]
      rw [ih hrest]
      have h1 : b1 / 4 * 4 + (b1 % 4 * 16 + b2 / 16) / 16 = b1 := by omega
      have h2 : (b1 % 4 * 16 + b2 / 16) % 16 * 16 + (b2 % 16 * 4 + b3 / 64) / 4 = b2 := by
        omega
      have h3 : (b2 % 16 * 4 + b3 / 64) % 4 * 64 + b3 % 64 = b3 := by omega
      rw [h1, h2, h3]

theorem toInt16_eq_self (n : ℤ) (h1 : -32768 ≤ n) (h2 : n < 32768) : toInt16 n = n := by
  simp only [toInt16]
  split <;> omega

theorem clamp_le (x : ℚ) : max (-1) (min 1 x) ≤ 1 :=
  max_le (by norm_num) (min_le_left 1 x)

theorem clamp_ge (x : ℚ) : -1 ≤ max (-1) (min 1 x) :=
  le_max_left _ _

theorem ratTrunc_of_nonneg (q : ℚ) (h : 0 ≤ q) : ratTrunc q = ⌊q⌋ := if_pos h

theorem ratTrunc_of_neg (q : ℚ) (h : q < 0) : ratTrunc q = ⌈q⌉ :=
  if_neg (by exact fun hc => absurd h (not_lt.mpr hc))

theorem floatToInt16_eq_trunc (x : ℚ) :
    floatToInt16 x
      = (if max (-1) (min 1 x) < 0 then ratTrunc (max (-1) (min 1 x) * 32768)
         else ratTrunc (max (-1) (min 1 x) * 32767)) ∧
    -32768 ≤ floatToInt16 x ∧ floatToInt16 x < 32768 := by
  have h1 := clamp_ge x
  have h2 := clamp_le x
  set s := max (-1) (min 1 x) with hs
  by_cases hneg : s < 0
  · have hq1 : (-32768 : ℚ) ≤ s * 32768 := by linarith
    have hq2 : s * 32768 < 0 := by nlinarith
    have htr : ratTrunc (s * 32768) = ⌈s * 32768⌉ := ratTrunc_of_neg _ hq2
    have hlb : (-32768 : ℤ) ≤ ⌈s * 32768⌉ := by
      have := Int.le_ceil (s * 32768)
      have : (-32768 : ℚ) ≤ (⌈s * 32768⌉ : ℚ) := le_trans hq1 this
      exact_mod_cast this
    have hub : ⌈s * 32768⌉ ≤ 0 := Int.ceil_le.mpr (by exact_mod_cast le_of_lt hq2)
    have heq : floatToInt16 x = ratTrunc (s * 32768) := by
      simp only [floatToInt16, ← hs, if_pos hneg]
      rw [htr]
      exact toInt16_eq_self _ hlb (by omega)
    refine ⟨by rw [heq, if_pos hneg], ?_, ?_⟩
    · rw [heq, htr]; exact hlb
    · rw [heq, htr]; omega
  · have hsnn : 0 ≤ s := le_of_not_lt hneg
    have hq1 : (0 : ℚ) ≤ s * 32767 := by positivity
    have hq2 : s * 32767 ≤ 32767 := by nlinarith
    have htr : ratTrunc (s * 32767) = ⌊s * 32767⌋ := ratTrunc_of_nonneg _ hq1
    have hlb : (0 : ℤ) ≤ ⌊s * 32767⌋ := Int.le_floor.mpr (by exact_mod_cast hq1)
    have hub : ⌊s * 32767⌋ ≤ 32767 := by
      have := Int.floor_le (s * 32767)
      have : (⌊s * 32767⌋ : ℚ) ≤ 32767 := le_trans this hq2
      exact_mod_cast this
    have heq : floatToInt16 x = ratTrunc (s * 32767) := by
      simp only [floatToInt16, ← hs, if_neg hneg]
      rw [htr]
      exact toInt16_eq_self _ (by omega) (by omega)
    refine ⟨by rw [heq, if_neg hneg], ?_, ?_⟩
    · rw [heq, htr]; omega
    · rw [heq, htr]; omega

theorem decodeInt16LE_bytes (v : ℤ) (h1 : -32768 ≤ v) (h2 : v < 32768) :
    decodeInt16LE ((v % 65536).toNat % 256) ((v % 65536).toNat / 256) = v := by
  simp only [decodeInt16LE]
  split <;> omega

theorem decodePcmSamples_pcmData (data : List ℚ) :
    decodePcmSamples (pcmData data)
      = some (data.map (fun s => ((floatToInt16 s : ℚ) / 32768))) := by
  induction data with
  | nil => rfl
  | cons s rest ih =>
      have hb := (floatToInt16_eq_trunc s).2
      have hstep : pcmData (s :: rest)
          = (floatToInt16 s % 65536).toNat % 256 ::
            ((floatToInt16 s % 65536).toNat / 256 :: pcmData rest) := by
        simp [pcmData, int16LEBytes]
      rw [hstep]
      simp only [decodePcmSamples, ih, List.map_cons]
      rw [decodeInt16LE_bytes (floatToInt16 s) hb.1 hb.2]

/-! ## Claim theorems -/

/-- C10: for every byte array, `decodeBase64 (encodeBase64 b)` returns a byte
array equal to `b` — the base64 encode/decode pair is a round trip. -/
theorem decodeBase64_encodeBase64_roundtrip (bytes : List ℕ)
    (h : ∀ b ∈ bytes, b < 256) :
    decodeBase64 (encodeBase64 bytes) = some bytes :=
  atob_btoa bytes h

theorem decodeBase64_encodeBase64_roundtrip_witness :
    (∀ b ∈ [104, 105, 33], b < 256) ∧
      decodeBase64 (encodeBase64 [104, 105, 33]) = some [104, 105, 33] :=
  ⟨by decide, decodeBase64_encodeBase64_roundtrip [104, 105, 33] (by decide)⟩

/-- C5: `downsampleTo16k` with input rate 16000 returns the input unchanged,
and for every rate R above 16000 the output length is exactly
`ceil(inputLength / (R/16000))`. -/
theorem downsample_identity_and_length :
    (∀ input : List ℚ, downsampleTo16k input 16000 = input) ∧
    (∀ (input : List ℚ) (r : ℕ), 16000 < r →
      (downsampleTo16k input r).length
        = (⌈(input.length : ℚ) / ((r : ℚ) / 16000)⌉).toNat) := by
  constructor
  · intro input
    simp [downsampleTo16k]
  · intro input r hr
    have hne : r ≠ 16000 := by omega
    simp only [downsampleTo16k, if_neg hne]
    rw [List.length_map, List.length_range]

theorem downsample_identity_and_length_witness :
    downsampleTo16k [5, 7] 16000 = [5, 7] ∧
    (16000 < 48000 ∧
      (downsampleTo16k [1, 2, 3] 48000).length
        = (⌈(([1, 2, 3] : List ℚ).length : ℚ) / (((48000 : ℕ) : ℚ) / 16000)⌉).toNat) :=
  ⟨downsample_identity_and_length.1 [5, 7],
   by norm_num,
   downsample_identity_and_length.2 [1, 2, 3] 48000 (by norm_num)⟩

/-- C6: at the concrete input [0, 1, 0] with rate 24000 the code and the
interpolation formula of the spec diverge at output index 1: the JavaScript
`||` fallback treats the in-range zero sample `input[2]` as absent, so the
code yields 1 where the formula `input[1]·(1−1/2) + input[2]·(1/2)` yields
1/2. -/
theorem downsample_interp_divergence :
    downsampleTo16k [0, 1, 0] 24000 = [0, 1] ∧
    downsampleSpecFormula [0, 1, 0] 24000 = [0, 1/2] ∧
    (1 : ℚ) ≠ 1/2 := by
  have hr2 : List.range (Int.toNat 2) = [0, 1] := by decide
  refine ⟨?_, ?_, by norm_num⟩
  · norm_num [downsampleTo16k, jsOr, hr2]
  · norm_num [downsampleSpecFormula, specSampleAt, hr2]

/-- C7 counterexample: at the sample 1/2 the code stores
trunc(1/2·32767) = 16383 (little-endian bytes [255, 63]) whereas the rounding
conversion of the claim would store round(1/2·32767) = 16384 (bytes [0, 64]).
The `Int16Array` assignment truncates; it does not round. -/
theorem createPcmBlob_rounding_counterexample :
    pcmData [1/2] = [255, 63] ∧
    int16LEBytes (round ((1/2 : ℚ) * 32767)) = [0, 64] ∧
    ([255, 63] : List ℕ) ≠ [0, 64] := by
  refine ⟨?_, ?_, by decide⟩
  · norm_num [pcmData, int16LEBytes, floatToInt16, toInt16, ratTrunc, max_def, min_def]
    omega
  · rw [round_eq]
    norm_num [int16LEBytes]
    omega

/-- C7 amended: every float sample is first clamped to [−1,1] and then
converted to a 16-bit integer by truncation toward zero — trunc(s·32768) when
s is negative and trunc(s·32767) otherwise — and the resulting int16 values
are packed little-endian into the chunk. -/
theorem createPcmBlob_trunc_le_bytes (data : List ℚ) :
    pcmData data = (data.map (fun x =>
      let s := max (-1) (min 1 x)
      let v := if s < 0 then ratTrunc (s * 32768) else ratTrunc (s * 32767)
      let u := (v % 65536).toNat
      [u % 256, u / 256])).flatten := by
  induction data with
  | nil => rfl
  | cons x rest ih =>
      have he := (floatToInt16_eq_trunc x).1
      simp only [pcmData, List.map_cons, List.flatten_cons] at *
      rw [ih]
      simp only [int16LEBytes, ← he]

/-- C8 counterexample: the sample 65535/65536 lies in [−1,1], encodes to the
int16 value 32766 and decodes to 16383/16384, an error of 3/65536, which
exceeds the claimed bound 1/32768 = 2/65536. -/
theorem pcm_roundtrip_bound_counterexample :
    decodePcmSamples (pcmData [65535/65536]) = some [16383/16384] ∧
    ¬ |(65535/65536 : ℚ) - 16383/16384| ≤ 1 / 32768 := by
  constructor
  · have h1 : pcmData [65535/65536] = [254, 127] := by
      norm_num [pcmData, int16LEBytes, floatToInt16, toInt16, ratTrunc, max_def, min_def]
      omega
    rw [h1]
    norm_num [decodePcmSamples, decodeInt16LE]
  · rw [show (65535/65536 : ℚ) - 16383/16384 = 3/65536 from by norm_num]
    rw [abs_of_pos (by norm_num)]
    norm_num

/-- C8 amended: encoding samples of [−1,1] with `createPcmBlob` and decoding
the PCM bytes as `decodeAudioData` does reproduces every sample to within an
error strictly below 2/32768 (the bound 1/32768 of the claim is exceeded for
positive samples, where the scale used for encoding is 32767 but the decoder
divides by 32768). -/
theorem pcm_roundtrip_error_bound (data : List ℚ)
    (h : ∀ s ∈ data, -1 ≤ s ∧ s ≤ 1) :
    ∃ out, decodePcmSamples (pcmData data) = some out ∧
      List.Forall₂ (fun s d => |s - d| < 2 / 32768) data out := by
  refine ⟨_, decodePcmSamples_pcmData data, ?_⟩
  rw [List.forall₂_map_right_iff]
  refine List.forall₂_same.mpr (fun s hs => ?_)
  obtain ⟨h1, h2⟩ := h s hs
  have hclamp : max (-1) (min 1 s) = s := by
    rw [min_eq_right h2, max_eq_right h1]
  obtain ⟨he, hb1, hb2⟩ := floatToInt16_eq_trunc s
  rw [hclamp] at he
  rw [abs_sub_lt_iff]
  by_cases hneg : s < 0
  · rw [if_pos hneg, ratTrunc_of_neg _ (by nlinarith)] at he
    have hc1 : s * 32768 ≤ (⌈s * 32768⌉ : ℚ) := Int.le_ceil _
    have hc2 : (⌈s * 32768⌉ : ℚ) < s * 32768 + 1 := Int.ceil_lt_add_one _
    rw [he]
    constructor <;> [nlinarith; nlinarith]
  · have hsnn : 0 ≤ s := le_of_not_lt hneg
    rw [if_neg hneg, ratTrunc_of_nonneg _ (by positivity)] at he
    have hf1 : (⌊s * 32767⌋ : ℚ) ≤ s * 32767 := Int.floor_le _
    have hf2 : s * 32767 - 1 < (⌊s * 32767⌋ : ℚ) := Int.sub_one_lt_floor _
    rw [he]
    constructor <;> [nlinarith; nlinarith]

theorem pcm_roundtrip_error_bound_witness :
    (∀ s ∈ ([1/2] : List ℚ), -1 ≤ s ∧ s ≤ 1) ∧
    ∃ out, decodePcmSamples (pcmData [1/2]) = some out ∧
      List.Forall₂ (fun s d => |s - d| < 2 / 32768) ([1/2] : List ℚ) out :=
  ⟨by norm_num, pcm_roundtrip_error_bound [1/2] (by norm_num)⟩

/-! ## Live client lemmas -/

theorem scheds_append (a b : List Effect) : scheds (a ++ b) = scheds a ++ scheds b :=
  List.filterMap_append a b _

theorem mem_scheds_iff (st d : ℚ) (es : List Effect) :
    (st, d) ∈ scheds es ↔ Effect.audioScheduled st d ∈ es := by
  simp only [scheds, List.mem_filterMap]
  constructor
  · rintro ⟨e, he, hf⟩
    cases e <;> simp_all
  · intro he
    exact ⟨_, he, rfl⟩

theorem stepInput_nst_scheds (s : ClientState) (msg : ServerContent) :
    (stepInput s msg).1.nextStartTime = s.nextStartTime ∧
      scheds (stepInput s msg).2 = [] := by
  cases h : msg.inputTranscription <;> simp [stepInput, scheds, h]

theorem stepOutput_nst_scheds (s : ClientState) (msg : ServerContent) :
    (stepOutput s msg).1.nextStartTime = s.nextStartTime ∧
      scheds (stepOutput s msg).2 = [] := by
  cases h : msg.outputTranscription <;> simp [stepOutput, scheds, h]

theorem stepTurnComplete_nst_scheds (s : ClientState) (msg : ServerContent) :
    (stepTurnComplete s msg).1.nextStartTime = s.nextStartTime ∧
      scheds (stepTurnComplete s msg).2 = [] := by
  cases h : msg.turnComplete with
  | false => simp [stepTurnComplete, h, scheds]
  | true =>
      simp only [stepTurnComplete, h, if_true]
      split_ifs <;> simp [scheds]

theorem stepAudio_char (s : ClientState) (msg : ServerContent) (now : ℚ) :
    ((stepAudio s msg now).1 = s ∧ (stepAudio s msg now).2 = []) ∨
    (∃ d : ℚ, 0 ≤ d ∧
      (stepAudio s msg now).2 = [Effect.audioScheduled (max now s.nextStartTime) d] ∧
      (stepAudio s msg now).1.nextStartTime = max now s.nextStartTime + d) := by
  rcases msg with ⟨mi, mit, mot, mtc, mad⟩
  cases mad with
  | none => left; simp [stepAudio]
  | some b64 =>
      by_cases hb : b64 = []
      · left; simp [stepAudio, hb]
      · cases hdec : decodeBase64 b64 with
        | none => left; simp [stepAudio, hb, hdec]
        | some bytes =>
            by_cases heven : bytes.length % 2 = 0
            · right
              refine ⟨((bytes.length / 2 : ℕ) : ℚ) / 24000, by positivity, ?_, ?_⟩ <;>
                simp [stepAudio, hb, hdec, heven]
            · left; simp [stepAudio, hb, hdec, heven]

theorem handleOnMessage_sched_char (s : ClientState) (msg : ServerContent) (now : ℚ)
    (h : msg.interrupted = false) :
    (scheds (handleOnMessage s msg now).2 = [] ∧
      (handleOnMessage s msg now).1.nextStartTime = s.nextStartTime) ∨
    (∃ d, 0 ≤ d ∧
      scheds (handleOnMessage s msg now).2 = [(max now s.nextStartTime, d)] ∧
      (handleOnMessage s msg now).1.nextStartTime = max now s.nextStartTime + d) := by
  obtain ⟨e1n, e1s⟩ := stepInput_nst_scheds s msg
  obtain ⟨e2n, e2s⟩ := stepOutput_nst_scheds (stepInput s msg).1 msg
  obtain ⟨e3n, e3s⟩ := stepTurnComplete_nst_scheds (stepOutput (stepInput s msg).1 msg).1 msg
  have hn3 : (stepTurnComplete (stepOutput (stepInput s msg).1 msg).1 msg).1.nextStartTime
      = s.nextStartTime := by rw [e3n, e2n, e1n]
  simp only [handleOnMessage, h, Bool.false_eq_true, if_false, scheds_append,
    e1s, e2s, e3s, List.nil_append]
  rcases stepAudio_char (stepTurnComplete (stepOutput (stepInput s msg).1 msg).1 msg).1
      msg now with ⟨ha1, ha2⟩ | ⟨d, hd, ha2, ha1⟩
  · left
    rw [ha2, ha1, hn3]
    exact ⟨rfl, rfl⟩
  · right
    refine ⟨d, hd, ?_, ?_⟩
    · rw [ha2, hn3]
      rfl
    · rw [ha1, hn3]

theorem processTrace_sched_invariant (tr : List (ServerContent × ℚ)) :
    ∀ s : ClientState, (∀ p ∈ tr, p.1.interrupted = false) →
      List.Chain' (fun a b : ℚ × ℚ => a.1 + a.2 ≤ b.1) (scheds (processTrace s tr).2) ∧
      (∀ x ∈ scheds (processTrace s tr).2,
        s.nextStartTime ≤ x.1 ∧ x.1 + x.2 ≤ (processTrace s tr).1.nextStartTime) ∧
      s.nextStartTime ≤ (processTrace s tr).1.nextStartTime := by
  induction tr with
  | nil =>
      intro s _
      refine ⟨by simp [processTrace, scheds], by simp [processTrace, scheds], le_refl _⟩
  | cons p rest ih =>
      intro s hno
      obtain ⟨m, t⟩ := p
      have hm : m.interrupted = false := hno (m, t) (by simp)
      have hrest : ∀ q ∈ rest, q.1.interrupted = false := fun q hq => hno q (by simp [hq])
      have hrun : processTrace s ((m, t) :: rest)
          = ((processTrace (handleOnMessage s m t).1 rest).1,
             (handleOnMessage s m t).2 ++ (processTrace (handleOnMessage s m t).1 rest).2) := by
        simp [processTrace]
      obtain ⟨ihc, ihb, ihn⟩ := ih (handleOnMessage s m t).1 hrest
      rcases handleOnMessage_sched_char s m t hm with ⟨hs0, hn0⟩ | ⟨d, hd, hs0, hn0⟩
      · rw [hrun]
        simp only [scheds_append, hs0, List.nil_append]
        refine ⟨ihc, fun x hx => ?_, ?_⟩
        · obtain ⟨hb1, hb2⟩ := ihb x hx
          exact ⟨by rw [hn0] at hb1; exact hb1, hb2⟩
        · calc s.nextStartTime = (handleOnMessage s m t).1.nextStartTime := hn0.symm
            _ ≤ _ := ihn
      · rw [hrun]
        simp only [scheds_append, hs0, List.singleton_append]
        have hstart : s.nextStartTime ≤ max t s.nextStartTime := le_max_right _ _
        have hmono : s.nextStartTime ≤ (handleOnMessage s m t).1.nextStartTime := by
          rw [hn0]
          calc s.nextStartTime ≤ max t s.nextStartTime := hstart
            _ ≤ max t s.nextStartTime + d := by linarith
        have hnewn : max t s.nextStartTime + d
            ≤ (processTrace (handleOnMessage s m t).1 rest).1.nextStartTime := by
          rw [← hn0]
          exact ihn
        refine ⟨?_, ?_, le_trans hmono ihn⟩
        · rw [List.chain'_cons']
          refine ⟨fun y hy => ?_, ihc⟩
          have hymem : y ∈ scheds (processTrace (handleOnMessage s m t).1 rest).2 :=
            List.mem_of_mem_head? hy
          have := (ihb y hymem).1
          rw [hn0] at this
          exact this
        · intro x hx
          rcases List.mem_cons.mp hx with hx1 | hx2
          · subst hx1
            exact ⟨hstart, hnewn⟩
          · obtain ⟨hb1, hb2⟩ := ihb x hx2
            exact ⟨le_trans hmono hb1, hb2⟩

/-- C2: a message whose content carries the interrupted flag clears both
turn accumulators, stops every tracked scheduled audio source and empties
the tracked set, and performs no other effect: no transcript-update
callback is invoked and no audio is decoded or scheduled from it. -/
theorem interrupted_flush (s : ClientState) (msg : ServerContent) (now : ℚ)
    (h : msg.interrupted = true) :
    (handleOnMessage s msg now).1.currentInputTranscription = [] ∧
    (handleOnMessage s msg now).1.currentOutputTranscription = [] ∧
    (handleOnMessage s msg now).1.scheduledSources = [] ∧
    (handleOnMessage s msg now).2 = s.scheduledSources.map Effect.sourceStopped ∧
    (∀ t u c, Effect.transcriptUpdate t u c ∉ (handleOnMessage s msg now).2) ∧
    (∀ a d, Effect.audioScheduled a d ∉ (handleOnMessage s msg now).2) := by
  have heq : handleOnMessage s msg now
      = ((⟨[], [], 0, [], s.nextSourceId⟩ : ClientState),
         s.scheduledSources.map Effect.sourceStopped) := by
    simp [handleOnMessage, h]
  rw [heq]
  refine ⟨rfl, rfl, rfl, rfl, ?_, ?_⟩
  · intro t u c hmem
    obtain ⟨i, _, hi⟩ := List.mem_map.mp hmem
    exact Effect.noConfusion hi
  · intro a d hmem
    obtain ⟨i, _, hi⟩ := List.mem_map.mp hmem
    exact Effect.noConfusion hi

theorem interrupted_flush_witness :
    ((⟨true, none, none, false, none⟩ : ServerContent).interrupted = true) ∧
    ((handleOnMessage ⟨['a'], ['b'], 5, [3, 4], 7⟩ ⟨true, none, none, false, none⟩ 2).1.currentInputTranscription = [] ∧
     (handleOnMessage ⟨['a'], ['b'], 5, [3, 4], 7⟩ ⟨true, none, none, false, none⟩ 2).1.currentOutputTranscription = [] ∧
     (handleOnMessage ⟨['a'], ['b'], 5, [3, 4], 7⟩ ⟨true, none, none, false, none⟩ 2).1.scheduledSources = [] ∧
     (handleOnMessage ⟨['a'], ['b'], 5, [3, 4], 7⟩ ⟨true, none, none, false, none⟩ 2).2
        = ([3, 4] : List ℕ).map Effect.sourceStopped ∧
     (∀ t u c, Effect.transcriptUpdate t u c ∉
        (handleOnMessage ⟨['a'], ['b'], 5, [3, 4], 7⟩ ⟨true, none, none, false, none⟩ 2).2) ∧
     (∀ a d, Effect.audioScheduled a d ∉
        (handleOnMessage ⟨['a'], ['b'], 5, [3, 4], 7⟩ ⟨true, none, none, false, none⟩ 2).2)) :=
  ⟨rfl, interrupted_flush ⟨['a'], ['b'], 5, [3, 4], 7⟩ ⟨true, none, none, false, none⟩ 2 rfl⟩

/-- C3: every scheduled chunk starts at max(audioClockNow, PlaybackClock)
and advances the clock by its duration; over any trace free of interruptions
consecutive scheduled chunks satisfy start(i+1) ≥ start(i) + d(i); an
interrupted message resets the clock cursor to 0, so the next chunk after it
is scheduled at the audio-clock reading itself (in particular not offset by
the cancelled schedule). -/
theorem playback_scheduling_correct :
    (∀ (s : ClientState) (msg : ServerContent) (now st d : ℚ),
      Effect.audioScheduled st d ∈ (handleOnMessage s msg now).2 →
      st = max now s.nextStartTime ∧
        (handleOnMessage s msg now).1.nextStartTime = st + d) ∧
    (∀ (tr : List (ServerContent × ℚ)) (s : ClientState),
      (∀ p ∈ tr, p.1.interrupted = false) →
      List.Chain' (fun a b : ℚ × ℚ => a.1 + a.2 ≤ b.1) (scheds (processTrace s tr).2)) ∧
    (∀ (s : ClientState) (msg : ServerContent) (now : ℚ),
      msg.interrupted = true → (handleOnMessage s msg now).1.nextStartTime = 0) ∧
    (∀ (s : ClientState) (msg : ServerContent) (now st d : ℚ),
      s.nextStartTime = 0 → 0 ≤ now →
      Effect.audioScheduled st d ∈ (handleOnMessage s msg now).2 → st = now) := by
  have hstep : ∀ (s : ClientState) (msg : ServerContent) (now st d : ℚ),
      Effect.audioScheduled st d ∈ (handleOnMessage s msg now).2 →
      st = max now s.nextStartTime ∧
        (handleOnMessage s msg now).1.nextStartTime = st + d := by
    intro s msg now st d hmem
    cases hi : msg.interrupted with
    | true =>
        exfalso
        simp only [handleOnMessage, hi, if_true] at hmem
        obtain ⟨i, _, hcon⟩ := List.mem_map.mp hmem
        exact Effect.noConfusion hcon
    | false =>
        have hsched : (st, d) ∈ scheds (handleOnMessage s msg now).2 :=
          (mem_scheds_iff st d _).mpr hmem
        rcases handleOnMessage_sched_char s msg now hi with ⟨hs0, _⟩ | ⟨d0, _, hs0, hn0⟩
        · rw [hs0] at hsched
          exact absurd hsched (List.not_mem_nil _)
        · rw [hs0] at hsched
          obtain ⟨h1, h2⟩ := Prod.mk.injEq .. ▸ List.mem_singleton.mp hsched
          subst h1
          subst h2
          exact ⟨rfl, hn0⟩
  refine ⟨hstep, ?_, ?_, ?_⟩
  · intro tr s hno
    exact (processTrace_sched_invariant tr s hno).1
  · intro s msg now h
    simp only [handleOnMessage, h, if_true]
  · intro s msg now st d h0 hnow hmem
    obtain ⟨h1, _⟩ := hstep s msg now st d hmem
    rw [h0, max_eq_left hnow] at h1
    exact h1

theorem playback_scheduling_correct_witness :
    ((∀ p ∈ ([(⟨false, none, none, false, some ['A', 'A', 'A', '=']⟩, 0),
        (⟨false, none, none, false, some ['A', 'A', 'A', '=']⟩, 0)] : List (ServerContent × ℚ)),
        p.1.interrupted = false) ∧
      List.Chain' (fun a b : ℚ × ℚ => a.1 + a.2 ≤ b.1)
        (scheds (processTrace initialClientState
          [(⟨false, none, none, false, some ['A', 'A', 'A', '=']⟩, 0),
           (⟨false, none, none, false, some ['A', 'A', 'A', '=']⟩, 0)]).2)) ∧
    ((⟨true, none, none, false, none⟩ : ServerContent).interrupted = true ∧
      (handleOnMessage initialClientState ⟨true, none, none, false, none⟩ 3).1.nextStartTime = 0) :=
  ⟨⟨by simp, playback_scheduling_correct.2.1 _ initialClientState (by simp)⟩,
   rfl, playback_scheduling_correct.2.2.1 initialClientState ⟨true, none, none, false, none⟩ 3 rfl⟩

/-! ## Reconciler lemmas -/

theorem handleTranscriptUpdate_shape (prev : List TranscriptItem) (text : List Char)
    (isUser isComplete : Bool) (now : ℕ) :
    handleTranscriptUpdate prev text isUser isComplete now = prev ∨
    (∃ L x, prev.getLast? = some L ∧ x.id = L.id ∧
      handleTranscriptUpdate prev text isUser isComplete now = prev.dropLast ++ [x]) ∨
    handleTranscriptUpdate prev text isUser isComplete now
      = prev ++ [⟨now, if isUser then Speaker.user else Speaker.model, text, now, isComplete⟩] := by
  simp only [handleTranscriptUpdate]
  by_cases hblank : jsTrimmedEmpty text
  · left
    simp [hblank]
  · rw [if_neg hblank]
    cases hL : prev.getLast? with
    | none => right; right; rfl
    | some L =>
        dsimp only
        by_cases hA : L.source = (if isUser then Speaker.user else Speaker.model) ∧
            L.isComplete = false
        · rw [if_pos hA]
          right; left
          exact ⟨L, ⟨L.id, L.source, text, now, isComplete⟩, rfl, rfl, rfl⟩
        · rw [if_neg hA]
          by_cases hB : L.source = (if isUser then Speaker.user else Speaker.model) ∧
              L.isComplete = true
          · rw [if_pos hB]
            by_cases h1 : L.text = text
            · rw [if_pos h1]; left; rfl
            · rw [if_neg h1]
              by_cases h2 : text.isPrefixOf L.text
              · rw [if_pos h2]; left; rfl
              · rw [if_neg h2]
                by_cases h3 : L.text.isPrefixOf text
                · rw [if_pos h3]
                  right; left
                  exact ⟨L, ⟨L.id, L.source, text, now, isComplete⟩, rfl, rfl, rfl⟩
                · rw [if_neg h3]; right; right; rfl
          · rw [if_neg hB]; right; right; rfl

theorem handleTranscriptUpdate_ids (prev : List TranscriptItem) (text : List Char)
    (isUser isComplete : Bool) (now : ℕ) :
    (handleTranscriptUpdate prev text isUser isComplete now).map TranscriptItem.id
      = prev.map TranscriptItem.id ∨
    (handleTranscriptUpdate prev text isUser isComplete now).map TranscriptItem.id
      = prev.map TranscriptItem.id ++ [now] := by
  rcases handleTranscriptUpdate_shape prev text isUser isComplete now with
    h | ⟨L, x, hL, hid, h⟩ | h
  · left; rw [h]
  · left
    have hprev : prev.dropLast ++ [L] = prev :=
      List.dropLast_append_getLast? L (Option.mem_def.mpr hL)
    rw [h, List.map_append]
    conv_rhs => rw [← hprev, List.map_append]
    simp [hid]
  · right
    rw [h, List.map_append]
    rfl

theorem runUpdates_ids_lt (us : List UpdateEvent) :
    ∀ (init : List TranscriptItem) (T : ℕ),
      (∀ x ∈ init, x.id < T) → (∀ v ∈ us, v.now < T) →
      ∀ x ∈ runUpdates init us, x.id < T := by
  induction us with
  | nil => intro init T hinit _ x hx; exact hinit x hx
  | cons u rest ih =>
      intro init T hinit hus x hx
      have hstep : ∀ y ∈ handleTranscriptUpdate init u.text u.isUser u.isComplete u.now,
          y.id < T := by
        intro y hy
        have hyid : y.id ∈ (handleTranscriptUpdate init u.text u.isUser u.isComplete
            u.now).map TranscriptItem.id := List.mem_map_of_mem _ hy
        rcases handleTranscriptUpdate_ids init u.text u.isUser u.isComplete u.now with h | h
        · rw [h] at hyid
          obtain ⟨z, hz, hzy⟩ := List.mem_map.mp hyid
          rw [← hzy]
          exact hinit z hz
        · rw [h] at hyid
          rcases List.mem_append.mp hyid with hm | hm
          · obtain ⟨z, hz, hzy⟩ := List.mem_map.mp hm
            rw [← hzy]
            exact hinit z hz
          · rw [List.mem_singleton.mp hm]
            exact hus u (by simp)
      exact ih _ T hstep (fun v hv => hus v (by simp [hv])) x hx

theorem runUpdates_ids_nodup_aux (us : List UpdateEvent) :
    ∀ init : List TranscriptItem,
      (init.map TranscriptItem.id).Nodup →
      (∀ x ∈ init, ∀ v ∈ us, x.id < v.now) →
      ((us.map UpdateEvent.now).Pairwise (· < ·)) →
      ((runUpdates init us).map TranscriptItem.id).Nodup := by
  induction us with
  | nil => intro init hnd _ _; exact hnd
  | cons u rest ih =>
      intro init hnd hbound hpw
      rw [List.map_cons, List.pairwise_cons] at hpw
      have hpwrest : ∀ v ∈ rest, u.now < v.now :=
        fun v hv => hpw.1 v.now (List.mem_map_of_mem _ hv)
      have hub : ∀ x ∈ init, x.id < u.now := fun x hx => hbound x hx u (by simp)
      have hnd1 : ((handleTranscriptUpdate init u.text u.isUser u.isComplete
          u.now).map TranscriptItem.id).Nodup := by
        rcases handleTranscriptUpdate_ids init u.text u.isUser u.isComplete u.now with h | h
        · rw [h]; exact hnd
        · rw [h, List.nodup_append]
          refine ⟨hnd, List.nodup_singleton _, ?_⟩
          intro a ha hb
          obtain ⟨z, hz, hzy⟩ := List.mem_map.mp ha
          rw [List.mem_singleton.mp hb] at hzy
          have := hub z hz
          omega
      have hbound1 : ∀ x ∈ handleTranscriptUpdate init u.text u.isUser u.isComplete u.now,
          ∀ v ∈ rest, x.id < v.now := by
        intro x hx v hv
        have hyid : x.id ∈ (handleTranscriptUpdate init u.text u.isUser u.isComplete
            u.now).map TranscriptItem.id := List.mem_map_of_mem _ hx
        rcases handleTranscriptUpdate_ids init u.text u.isUser u.isComplete u.now with h | h
        · rw [h] at hyid
          obtain ⟨z, hz, hzy⟩ := List.mem_map.mp hyid
          rw [← hzy]
          exact hbound z hz v (by simp [hv])
        · rw [h] at hyid
          rcases List.mem_append.mp hyid with hm | hm
          · obtain ⟨z, hz, hzy⟩ := List.mem_map.mp hm
            rw [← hzy]
            exact hbound z hz v (by simp [hv])
          · rw [List.mem_singleton.mp hm]
            exact hpwrest v hv
      exact ih _ hnd1 hbound1 hpw.2

/-! ## Reconciler claim theorems -/

/-- C1: the reconciler applies exactly the upsert rule as the spec states it:
blank text is a no-op; a same-speaker incomplete last item is replaced in
place; against a same-speaker completed last item, a text equal to or a
prefix of the finalized text is dropped, a strict extension reopens the item
with the new completeness flag, and any other text appends; otherwise (no
last item or a different speaker) a new item is appended. -/
theorem handleTranscriptUpdate_eq_upsertRule (prev : List TranscriptItem) (text : List Char)
    (isUser isComplete : Bool) (now : ℕ) :
    handleTranscriptUpdate prev text isUser isComplete now
      = upsertRuleSpec prev text isUser isComplete now := by
  simp only [handleTranscriptUpdate, upsertRuleSpec]
  by_cases hblank : jsTrimmedEmpty text
  · simp [hblank]
  · rw [if_neg hblank, if_neg hblank]
    cases hL : prev.getLast? with
    | none => rfl
    | some L =>
        dsimp only
        by_cases hc1 : L.source = (if isUser then Speaker.user else Speaker.model) ∧
            L.isComplete = false
        · rw [if_pos hc1, if_pos hc1]
        · rw [if_neg hc1, if_neg hc1]
          by_cases hc2 : L.source = (if isUser then Speaker.user else Speaker.model) ∧
              L.isComplete = true
          · rw [if_pos hc2, if_pos hc2]
            by_cases h1 : L.text = text
            · rw [if_pos h1, if_pos (Or.inl h1.symm)]
            · rw [if_neg h1]
              by_cases h2 : text.isPrefixOf L.text
              · rw [if_pos h2, if_pos (Or.inr (List.isPrefixOf_iff_prefix.mp h2))]
              · have hnor : ¬(text = L.text ∨ text <+: L.text) := by
                  rintro (he | hp)
                  · exact h1 he.symm
                  · exact h2 (List.isPrefixOf_iff_prefix.mpr hp)
                rw [if_neg h2, if_neg hnor]
                by_cases h3 : L.text.isPrefixOf text
                · rw [if_pos h3,
                    if_pos ⟨List.isPrefixOf_iff_prefix.mp h3, fun he => h1 he.symm⟩]
                · have hs2 : ¬((L.text <+: text) ∧ text ≠ L.text) := by
                    rintro ⟨hp, _⟩
                    exact h3 (List.isPrefixOf_iff_prefix.mpr hp)
                  rw [if_neg h3, if_neg hs2]
          · rw [if_neg hc2, if_neg hc2]

/-- C4 counterexample: three updates (user delta, model delta, user delta)
leave the sequence with incomplete user items at both index 0 and index 2, so
an incomplete user item that is not the final user element exists, refuting
the invariant that at most the final element for a given speaker can be
incomplete. -/
theorem reconciler_incomplete_invariant_counterexample :
    ¬ perSpeakerIncompleteInvariant (runUpdates []
      [⟨['a'], true, false, 1⟩, ⟨['b'], false, false, 2⟩, ⟨['c'], true, false, 3⟩]) := by
  intro h
  have h02 := h 0 2 (by decide) (by decide) (by decide) (by decide)
  exact absurd h02 (by decide)

/-- C4 amended: every update leaves every non-final item of the sequence
unchanged (each update either returns the sequence, rewrites only its final
element, or appends), so a completed item — indeed any item — is never
mutated once a later item follows it; but the per-speaker part of the
invariant fails, see the counterexample. -/
theorem reconciler_nonfinal_immutable :
    (∀ (prev : List TranscriptItem) (text : List Char) (isUser isComplete : Bool)
        (now i : ℕ), i + 1 < prev.length →
      (handleTranscriptUpdate prev text isUser isComplete now)[i]? = prev[i]?) ∧
    (∀ (prev : List TranscriptItem) (text : List Char) (isUser isComplete : Bool)
        (now : ℕ),
      prev.length ≤ (handleTranscriptUpdate prev text isUser isComplete now).length) ∧
    (∀ (init : List TranscriptItem) (us : List UpdateEvent) (i : ℕ),
      i + 1 < init.length → (runUpdates init us)[i]? = init[i]?) := by
  have hlen : ∀ (prev : List TranscriptItem) (text : List Char) (isUser isComplete : Bool)
      (now : ℕ),
      prev.length ≤ (handleTranscriptUpdate prev text isUser isComplete now).length := by
    intro prev text isUser isComplete now
    rcases handleTranscriptUpdate_shape prev text isUser isComplete now with
      h | ⟨L, x, hL, _, h⟩ | h
    · rw [h]
    · rw [h, List.length_append, List.length_dropLast]
      have hne : prev ≠ [] := by
        intro hnil
        rw [hnil] at hL
        exact Option.noConfusion hL
      have : 0 < prev.length := List.length_pos.mpr hne
      simp
      omega
    · rw [h, List.length_append]
      simp
  have hget : ∀ (prev : List TranscriptItem) (text : List Char) (isUser isComplete : Bool)
      (now i : ℕ), i + 1 < prev.length →
      (handleTranscriptUpdate prev text isUser isComplete now)[i]? = prev[i]? := by
    intro prev text isUser isComplete now i hi
    rcases handleTranscriptUpdate_shape prev text isUser isComplete now with
      h | ⟨L, x, hL, _, h⟩ | h
    · rw [h]
    · rw [h]
      have hidrop : i < prev.dropLast.length := by
        rw [List.length_dropLast]
        omega
      rw [List.getElem?_append_left hidrop, List.dropLast_eq_take, List.getElem?_take_of_lt]
      rw [List.length_dropLast] at hidrop
      exact hidrop
    · rw [h, List.getElem?_append_left (by omega)]
  refine ⟨hget, hlen, ?_⟩
  intro init us
  induction us generalizing init with
  | nil => intro i _; rfl
  | cons u rest ih =>
      intro i hi
      have h1 := hget init u.text u.isUser u.isComplete u.now i hi
      have h2 : i + 1 < (handleTranscriptUpdate init u.text u.isUser u.isComplete
          u.now).length := lt_of_lt_of_le hi (hlen init u.text u.isUser u.isComplete u.now)
      calc (runUpdates init (u :: rest))[i]?
          = (runUpdates (handleTranscriptUpdate init u.text u.isUser u.isComplete u.now)
              rest)[i]? := rfl
        _ = (handleTranscriptUpdate init u.text u.isUser u.isComplete u.now)[i]? := ih _ i h2
        _ = init[i]? := h1

theorem reconciler_nonfinal_immutable_witness :
    (0 + 1 < ([⟨1, Speaker.user, ['a'], 1, true⟩,
        ⟨2, Speaker.model, ['b'], 2, false⟩] : List TranscriptItem).length) ∧
    (runUpdates [⟨1, Speaker.user, ['a'], 1, true⟩, ⟨2, Speaker.model, ['b'], 2, false⟩]
        [⟨['c'], true, false, 9⟩])[0]?
      = ([⟨1, Speaker.user, ['a'], 1, true⟩,
          ⟨2, Speaker.model, ['b'], 2, false⟩] : List TranscriptItem)[0]? :=
  ⟨by decide,
   reconciler_nonfinal_immutable.2.2
     [⟨1, Speaker.user, ['a'], 1, true⟩, ⟨2, Speaker.model, ['b'], 2, false⟩]
     [⟨['c'], true, false, 9⟩] 0 (by decide)⟩

/-- C9 counterexample: the id of an appended item is the `Date.now()` reading
of the update.  Two updates in the same millisecond that both append (here a
user item then a model item, both at time 5) produce two items with the same
id, so the appended id is not fresh. -/
theorem transcript_id_collision :
    ((runUpdates [] [⟨['a'], true, false, 5⟩, ⟨['b'], false, false, 5⟩]).map
        TranscriptItem.id) = [5, 5] ∧
    ¬ ((runUpdates [] [⟨['a'], true, false, 5⟩, ⟨['b'], false, false, 5⟩]).map
        TranscriptItem.id).Nodup :=
  ⟨by decide, by decide⟩

/-- C9 amended: provided the `Date.now()` readings of the updates are
strictly increasing, the ids in the produced sequence are pairwise distinct,
and the id any further update would append differs from the id of every item
already in the sequence. -/
theorem transcript_ids_fresh_of_increasing :
    (∀ us : List UpdateEvent, ((us.map UpdateEvent.now).Pairwise (· < ·)) →
      ((runUpdates [] us).map TranscriptItem.id).Nodup) ∧
    (∀ (us : List UpdateEvent) (u : UpdateEvent),
      (((us ++ [u]).map UpdateEvent.now).Pairwise (· < ·)) →
      ∀ x ∈ runUpdates [] us, x.id ≠ u.now) := by
  constructor
  · intro us hpw
    exact runUpdates_ids_nodup_aux us [] (by simp) (by simp) hpw
  · intro us u hpw x hx
    have hlt : ∀ v ∈ us, v.now < u.now := by
      rw [List.map_append, List.pairwise_append] at hpw
      intro v hv
      exact hpw.2.2 v.now (List.mem_map_of_mem _ hv) u.now (by simp)
    have := runUpdates_ids_lt us [] u.now (by simp) hlt x hx
    omega

theorem transcript_ids_fresh_of_increasing_witness :
    ((([⟨['a'], true, false, 1⟩, ⟨['b'], false, false, 2⟩] : List UpdateEvent).map
        UpdateEvent.now).Pairwise (· < ·)) ∧
    ((runUpdates [] [⟨['a'], true, false, 1⟩, ⟨['b'], false, false, 2⟩]).map
        TranscriptItem.id).Nodup :=
  ⟨by decide,
   transcript_ids_fresh_of_increasing.1
     [⟨['a'], true, false, 1⟩, ⟨['b'], false, false, 2⟩] (by decide)⟩

end GLT
